import Mathlib

/-!
Verification development for release-notifier, package internal/k8s.

Shallow embedding of `src/release-notifier/internal/k8s/k8snotifier.go`
(`GetLatestRel`, `GetPrevRelFromArtifact`, `SaveLatestRel`, `Notify`) together
with the library functions the file calls:

* `strings.Contains`, `strings.Split` and `strconv.ParseUint` of the Go
  standard library,
* `semver.NewVersion`, `(*Version).Compare` and `Version.String` of
  `github.com/Masterminds/semver/v3` (file `version.go`, v3.2.x),
* `os.ReadFile` / `os.WriteFile`, `text/template` and `mail.SendMail`, which
  are taken as parameters (their results are supplied by the environment).

A Go `string` is modelled by a Lean `String` (the text it holds); helper
functions work on the list of its characters.  Every character class used by
the code is ASCII, and Go's byte-wise comparison of strings agrees with
code-point comparison on UTF-8 text.
-/

/-! ## Control-flow outcomes of a Go function -/

/-- The ways a call can end: it returns a value, it panics (run-time error), or
it terminates the process through `log.Fatal` / `log.Fatalln`. -/
inductive Outcome (α : Type) where
  | returned (a : α)
  | panicked (msg : String)
  | fatal (msg : String)
  deriving DecidableEq, Repr

namespace Outcome

/-- Sequencing: a panic or a fatal exit skips the rest. -/
def bind {α β : Type} (x : Outcome α) (f : α → Outcome β) : Outcome β :=
  match x with
  | returned a => f a
  | panicked m => panicked m
  | fatal m => fatal m

/-- The call came back to its caller. -/
def isReturned {α : Type} : Outcome α → Bool
  | returned _ => true
  | _ => false

end Outcome

/-! ## Go standard library: `strings` -/

namespace strings

/-- Whether `p` is a leading segment of `s`. -/
def hasLead : List Char → List Char → Bool
  | [], _ => true
  | _ :: _, [] => false
  | p :: ps, c :: cs => p == c && hasLead ps cs

/-- Whether `substr` occurs somewhere in `s` (lists of characters). -/
def containsChars (substr : List Char) : List Char → Bool
  | [] => hasLead substr []
  | c :: cs => hasLead substr (c :: cs) || containsChars substr cs

/-- Go `strings.Contains(s, substr)`. -/
def Contains (s substr : String) : Bool :=
  containsChars substr.data s.data

/-- The loop of `genericSplit` for a non-empty separator: `skip` counts the
characters of a separator occurrence still to be dropped, `cur` is the piece
being collected (reversed). -/
def splitChars (sep : List Char) : List Char → Nat → List Char → List (List Char)
  | [], _, cur => [cur.reverse]
  | _ :: rest, skip + 1, cur => splitChars sep rest skip cur
  | c :: rest, 0, cur =>
    if hasLead sep (c :: rest) then
      cur.reverse :: splitChars sep rest (sep.length - 1) []
    else
      splitChars sep rest 0 (c :: cur)

/-- Go `strings.Split(s, sep)`: with an empty separator the string is exploded
into its characters (an empty string gives an empty slice), otherwise it is cut
at every occurrence of the separator. -/
def Split (s sep : String) : List String :=
  if sep.data = [] then s.data.map (fun c => String.mk [c])
  else (splitChars sep.data s.data 0 []).map String.mk

end strings

/-! ## Go standard library: `strconv` -/

namespace strconv

/-- The decimal value of a list of digit characters. -/
def decimalValue (s : List Char) : Nat :=
  s.foldl (fun acc c => 10 * acc + (c.toNat - 48)) 0

/-- Go `strconv.ParseUint(s, 10, 64)`: `none` stands for a non-nil error (empty
input, a character that is not a decimal digit, or a value that does not fit
64 bits). -/
def ParseUint (s : String) : Option Nat :=
  if s.data = [] then none
  else if s.data.all Char.isDigit then
    if decimalValue s.data < 2 ^ 64 then some (decimalValue s.data) else none
  else none

end strconv

namespace strings

/-- Go `strings.TrimPrefix(s, lead)` on lists of characters. -/
def trimLeadChars : List Char → List Char → List Char → List Char
  | [], _, rest => rest
  | _ :: _, whole, [] => whole
  | p :: ps, whole, c :: cs => if p == c then trimLeadChars ps whole cs else whole

/-- Go `strings.TrimPrefix(s, lead)`: `s` without the leading `lead` when it
starts with it, `s` itself otherwise. -/
def TrimLead (s lead : String) : String :=
  String.mk (trimLeadChars lead.data s.data s.data)

/-- Go's `a < b` on strings: lexicographic comparison. -/
def lessChars : List Char → List Char → Bool
  | [], [] => false
  | [], _ :: _ => true
  | _ :: _, [] => false
  | a :: as, b :: bs =>
    if a.toNat < b.toNat then true
    else if b.toNat < a.toNat then false
    else lessChars as bs

/-- Go's `a < b` on strings. -/
def Less (a b : String) : Bool := lessChars a.data b.data

end strings

/-! ## `github.com/Masterminds/semver/v3` -/

namespace semver

/-- The errors `NewVersion` can return. -/
inductive Error where
  | ErrInvalidSemVer
  | ErrParseSegment
  | ErrSegmentStartsZero
  | ErrInvalidPrerelease
  | ErrInvalidMetadata
  deriving DecidableEq, Repr

/-- Go `type Version struct`. -/
structure Version where
  major : Nat
  minor : Nat
  patch : Nat
  pre : String
  metadata : String
  original : String
  deriving DecidableEq, Repr

/-- The capture groups of `versionRegex` that `NewVersion` reads:
`m[1]`, `m[2]`, `m[3]`, `m[5]` and `m[8]`. -/
structure Submatch where
  m1 : String
  m2 : String
  m3 : String
  m5 : String
  m8 : String
  deriving DecidableEq, Repr

/-- The character class `[0-9A-Za-z\-]`. -/
def identChar (c : Char) : Bool :=
  c.isDigit || c.isLower || c.isUpper || c == '-'

/-- The group `(\.[0-9]+)?`: the text it captures and what follows it. -/
def optDotDigits (s : List Char) : List Char × List Char :=
  match s with
  | c :: r =>
    if c = '.' then
      if (r.span Char.isDigit).1 = [] then ([], s)
      else (c :: (r.span Char.isDigit).1, (r.span Char.isDigit).2)
    else ([], s)
  | [] => ([], s)

/-- The greedy tail `[0-9A-Za-z\-]*(\.[0-9A-Za-z\-]+)*` of a dotted list of
identifiers: the text matched and what follows it. -/
def identsTail : List Char → List Char × List Char
  | [] => ([], [])
  | c :: rest =>
    if identChar c then (c :: (identsTail rest).1, (identsTail rest).2)
    else if c = '.' then
      match rest with
      | d :: _ =>
        if identChar d then (c :: (identsTail rest).1, (identsTail rest).2)
        else ([], c :: rest)
      | [] => ([], c :: rest)
    else ([], c :: rest)

/-- The groups `(-([0-9A-Za-z\-]+(\.[0-9A-Za-z\-]+)*))?` (lead `-`) and
`(\+([0-9A-Za-z\-]+(\.[0-9A-Za-z\-]+)*))?` (lead `+`): the text captured by the
inner group and what follows the outer group. -/
def optTagged (lead : Char) (s : List Char) : List Char × List Char :=
  match s with
  | c :: d :: r =>
    if c = lead ∧ identChar d then (d :: (identsTail r).1, (identsTail r).2)
    else ([], s)
  | _ => ([], s)

/-- Go `versionRegex.FindStringSubmatch(v)` for the anchored pattern
`^v?([0-9]+)(\.[0-9]+)?(\.[0-9]+)?(-(…))?(\+(…))?$`.  Every group is greedy
and the character that may follow a group cannot continue it, so the pattern is
matched in one pass from left to right. -/
def FindStringSubmatch (v : String) : Option Submatch :=
  let s0 := match v.data with
    | c :: r => if c = 'v' then r else c :: r
    | [] => []
  let g1 := s0.span Char.isDigit
  if g1.1 = [] then none
  else
    let g2 := optDotDigits g1.2
    let g3 := optDotDigits g2.2
    let g5 := optTagged '-' g3.2
    let g8 := optTagged '+' g5.2
    if g8.2 = [] then
      some ⟨String.mk g1.1, String.mk g2.1, String.mk g3.1, String.mk g5.1, String.mk g8.1⟩
    else none

/-- Go `containsOnly(s, comp)`: every character of `s` satisfies `comp`. -/
def containsOnly (s : String) (comp : Char → Bool) : Bool :=
  s.data.all comp

/-- One round of the loop of `validatePrerelease`. -/
def checkPrePart (p : String) : Option Error :=
  if containsOnly p Char.isDigit then
    if p.data.length > 1 ∧ p.data.head? = some '0' then some Error.ErrSegmentStartsZero
    else none
  else if !containsOnly p identChar then some Error.ErrInvalidPrerelease
  else none

/-- The first error a check reports on a list of parts, if any. -/
def firstError (check : String → Option Error) : List String → Option Error
  | [] => none
  | p :: ps =>
    match check p with
    | some e => some e
    | none => firstError check ps

/-- Go `validatePrerelease(p)`: `none` is a nil error. -/
def validatePrerelease (p : String) : Option Error :=
  firstError checkPrePart (strings.Split p ".")

/-- Go `validateMetadata(m)`: `none` is a nil error. -/
def validateMetadata (m : String) : Option Error :=
  firstError
    (fun p => if !containsOnly p identChar then some Error.ErrInvalidMetadata else none)
    (strings.Split m ".")

/-- Parsing of an optional `.N` group of the core version. -/
def parseSegment (m : String) : Option Nat :=
  if m ≠ "" then strconv.ParseUint (strings.TrimLead m ".") else some 0

/-- Go `semver.NewVersion(v)`. -/
def NewVersion (v : String) : Except Error Version :=
  match FindStringSubmatch v with
  | none => .error Error.ErrInvalidSemVer
  | some m =>
    match strconv.ParseUint m.m1, parseSegment m.m2, parseSegment m.m3 with
    | some major, some minor, some patch =>
      if m.m5 ≠ "" ∧ (validatePrerelease m.m5).isSome then
        .error ((validatePrerelease m.m5).getD Error.ErrInvalidPrerelease)
      else if m.m8 ≠ "" ∧ (validateMetadata m.m8).isSome then
        .error ((validateMetadata m.m8).getD Error.ErrInvalidMetadata)
      else .ok ⟨major, minor, patch, m.m5, m.m8, v⟩
    | _, _, _ => .error Error.ErrParseSegment

/-- Go `Version.String()`: `major.minor.patch`, then `-pre` and `+metadata`
when they are not empty. -/
def Version.String (v : Version) : String :=
  toString v.major ++ "." ++ toString v.minor ++ "." ++ toString v.patch
    ++ (if v.pre ≠ "" then "-" ++ v.pre else "")
    ++ (if v.metadata ≠ "" then "+" ++ v.metadata else "")

/-- Go `compareSegment(v, o)`. -/
def compareSegment (v o : Nat) : Int :=
  if v < o then -1 else if v > o then 1 else 0

/-- Go `comparePrePart(s, o)`. -/
def comparePrePart (s o : String) : Int :=
  if s = o then 0
  else if s = "" then (if o ≠ "" then -1 else 1)
  else if o = "" then (if s ≠ "" then 1 else -1)
  else
    match strconv.ParseUint o, strconv.ParseUint s with
    | none, none => if strings.Less o s then 1 else -1
    | none, some _ => -1
    | some _, none => 1
    | some oi, some si => if si > oi then 1 else -1

/-- The `for i := 0; i < l; i++` loop of `comparePrerelease`; the first
argument is the number of rounds left, `l - i`. -/
def comparePreLoop (sparts oparts : List String) : Nat → Nat → Int
  | 0, _ => 0
  | left + 1, i =>
    let stemp := if i < sparts.length then sparts.getD i "" else ""
    let otemp := if i < oparts.length then oparts.getD i "" else ""
    if comparePrePart stemp otemp ≠ 0 then comparePrePart stemp otemp
    else comparePreLoop sparts oparts left (i + 1)

/-- Go `comparePrerelease(v, o)`. -/
def comparePrerelease (v o : String) : Int :=
  let sparts := strings.Split v "."
  let oparts := strings.Split o "."
  let l := if oparts.length > sparts.length then oparts.length else sparts.length
  comparePreLoop sparts oparts l 0

/-- Go `(*Version).Compare(o)`: `-1`, `0` or `1`. -/
def Version.Compare (v o : Version) : Int :=
  if compareSegment v.major o.major ≠ 0 then compareSegment v.major o.major
  else if compareSegment v.minor o.minor ≠ 0 then compareSegment v.minor o.minor
  else if compareSegment v.patch o.patch ≠ 0 then compareSegment v.patch o.patch
  else if v.pre = "" ∧ o.pre = "" then 0
  else if v.pre = "" then 1
  else if o.pre = "" then -1
  else comparePrerelease v.pre o.pre

end semver

/-! ## `github.com/gocolly/colly` -/

namespace colly

/-- What `c.Visit(website)` delivers to the callbacks registered on the
collector: either the request fails (the `OnError` callback runs and no
`OnHTML` callback does), or the page is parsed and the `OnHTML` callback runs
once for each element matching the selector, in document order, with the
element's text `e.Text`. -/
inductive Visit where
  | failed (err : String)
  | page (texts : List String)
  deriving DecidableEq, Repr

end colly

/-! ## Package `k8s` (`k8snotifier.go`) -/

namespace k8s

/-- Go `const mailTemplate`. -/
def mailTemplate : String := "templates/mail-k8s.html.tmpl"

/-- Go `const artifactName`. -/
def artifactName : String := "k8s_release"

/-- The body of the `OnHTML` callback of `GetLatestRel`, as a function of the
captured variable `release` (a `*semver.Version`, `none` being the nil pointer)
and of the element text; it gives the new value of `release`. -/
def onHTML (release : Option semver.Version) (text : String) :
    Outcome (Option semver.Version) :=
  if !strings.Contains text "release" then .returned release
  else
    match (strings.Split text " ")[0]? with
    | none => .panicked "index out of range [0] with length 0"
    | some token =>
      match semver.NewVersion token with
      | .error _ => .returned release
      | .ok r =>
        match release with
        | none => .panicked "invalid memory address or nil pointer dereference"
        | some rel => if r.Compare rel = 1 then .returned (some r) else .returned release

/-- The successive calls of the `OnHTML` callback on the elements of a page. -/
def runCallbacks : Option semver.Version → List String → Outcome (Option semver.Version)
  | release, [] => .returned release
  | release, text :: rest => (onHTML release text).bind (fun r => runCallbacks r rest)

/-- The value of the variable `release` when `c.Visit(website)` is over. -/
def latestVersion (visit : colly.Visit) : Outcome (Option semver.Version) :=
  let release := (semver.NewVersion "0.0.0").toOption
  match visit with
  | .failed _ => .returned release
  | .page texts => runCallbacks release texts

/-- Go `func GetLatestRel() string`, as a function of what the visit of the
web site delivers. -/
def GetLatestRel (visit : colly.Visit) : Outcome String :=
  (latestVersion visit).bind fun release =>
    match release with
    | none => .panicked "invalid memory address or nil pointer dereference"
    | some rel => .returned rel.String

end k8s

/-! ## Package `os`: the storage the artifact lives in -/

namespace os

/-- The two operations of package `os` the code uses, over a storage state `σ`.
`ReadFile` gives the content or an error; `WriteFile` gives the state after
the call and the error, `none` being nil. -/
structure Env (σ : Type) where
  ReadFile : σ → String → Except String String
  WriteFile : σ → String → String → Nat → σ × Option String

/-- A successful write is what a later read of the same file returns. -/
def Env.ReadAfterWrite {σ : Type} (env : Env σ) : Prop :=
  ∀ (s : σ) (name data : String) (perm : Nat),
    (env.WriteFile s name data perm).2 = none →
      env.ReadFile (env.WriteFile s name data perm).1 name = .ok data

/-- A storage held in memory: the files by name, and whether the storage
refuses writes. -/
structure MemFS where
  files : List (String × String)
  readOnly : Bool
  deriving DecidableEq, Repr

/-- Reading a file of a `MemFS`. -/
def MemFS.read (s : MemFS) (name : String) : Except String String :=
  match s.files.lookup name with
  | some data => .ok data
  | none => .error "no such file or directory"

/-- Writing a file of a `MemFS`. -/
def MemFS.write (s : MemFS) (name data : String) (_perm : Nat) : MemFS × Option String :=
  if s.readOnly then (s, some "read-only file system")
  else (⟨(name, data) :: s.files.filter (fun e => e.1 ≠ name), false⟩, none)

/-- The operations of a `MemFS`. -/
def MemFS.env : Env MemFS := ⟨MemFS.read, MemFS.write⟩

/-- A storage held in memory with room for a bounded number of writes.
`os.WriteFile` opens the file with `O_TRUNC` before it writes, so a write that
finds no room left fails after the file has been emptied. -/
structure QuotaFS where
  files : List (String × String)
  room : Nat
  deriving DecidableEq, Repr

/-- Reading a file of a `QuotaFS`. -/
def QuotaFS.read (s : QuotaFS) (name : String) : Except String String :=
  match s.files.lookup name with
  | some data => .ok data
  | none => .error "no such file or directory"

/-- Writing a file of a `QuotaFS`. -/
def QuotaFS.write (s : QuotaFS) (name data : String) (_perm : Nat) : QuotaFS × Option String :=
  match s.room with
  | 0 => (⟨(name, "") :: s.files.filter (fun e => e.1 ≠ name), 0⟩, some "no space left on device")
  | k + 1 => (⟨(name, data) :: s.files.filter (fun e => e.1 ≠ name), k⟩, none)

/-- The operations of a `QuotaFS`. -/
def QuotaFS.env : Env QuotaFS := ⟨QuotaFS.read, QuotaFS.write⟩

end os

namespace k8s

/-- Go `func GetPrevRelFromArtifact() string`. -/
def GetPrevRelFromArtifact {σ : Type} (env : os.Env σ) (s : σ) : Outcome String :=
  match env.ReadFile s artifactName with
  | .error _ => .returned ""
  | .ok data => .returned data

/-- Go `func SaveLatestRel(release string)`: the storage after the call and how
the call ends. -/
def SaveLatestRel {σ : Type} (env : os.Env σ) (s : σ) (release : String) :
    σ × Outcome Unit :=
  match env.WriteFile s artifactName release 0o644 with
  | (s1, some err) => (s1, .fatal err)
  | (s1, none) => (s1, .returned ())

end k8s

/-! ## Package `text/template` and the mail collaborator -/

namespace template

/-- The two operations of `text/template` that `Notify` uses, over a type `T`
of parsed templates.  `ParseFiles` gives the pair `(t, err)` of its two results
(`none` is nil); `Execute` gives the text written to the buffer and the error
returned. -/
structure Env (T : Type) where
  ParseFiles : String → Option T × Option String
  Execute : T → String → String → String × Option String

end template

namespace k8s

/-- Go `func Notify(newRelease string, alignedRelease string)`: the buffers
passed to `mail.SendMail`, in order, and how the call ends.  `SendMail` is the
mail collaborator. -/
def Notify {T : Type} (tpl : template.Env T) (SendMail : String → Outcome Unit)
    (newRelease alignedRelease : String) : List String × Outcome Unit :=
  let mimeHeaders := "MIME-version: 1.0;\nContent-Type: text/html; charset=\"UTF-8\";\n\n"
  let buff := "Subject: Action Required: Kubernetes New Release (" ++ newRelease ++ ")\n"
    ++ mimeHeaders ++ "\n\n"
  let parsed := tpl.ParseFiles mailTemplate
  match parsed.1 with
  | none => ([], .panicked "invalid memory address or nil pointer dereference")
  | some t =>
    let buff := buff ++ (tpl.Execute t newRelease alignedRelease).1
    match parsed.2 with
    | some err => ([], .fatal err)
    | none => ([buff], SendMail buff)

end k8s

/-! ## Specification vocabulary -/

namespace semver

/-- The comparison of two lists of pre-release parts, `n` rounds long, a list
that has run out standing for the empty part `""` (the placeholder of
`comparePrerelease`). -/
def cmpPadded : Nat → List String → List String → Int
  | 0, _, _ => 0
  | n + 1, a, b =>
    if comparePrePart (a.headD "") (b.headD "") ≠ 0 then comparePrePart (a.headD "") (b.headD "")
    else cmpPadded n a.tail b.tail

/-- The parts of the pre-release of a version pass the check of
`validatePrerelease`. -/
def Version.wf (v : Version) : Prop :=
  ∀ p ∈ strings.Split v.pre ".", checkPrePart p = none

end semver

namespace k8s

/-- The version `GetLatestRel` starts from: the one parsed from `"0.0.0"`. -/
def sentinel : semver.Version := ⟨0, 0, 0, "", "", "0.0.0"⟩

/-- The candidate an element contributes: the version parsed from the first
space-separated token of its text, when the text contains `"release"` and the
token parses. -/
def candidate (text : String) : Option semver.Version :=
  if strings.Contains text "release" then
    match (strings.Split text " ")[0]? with
    | some token => (semver.NewVersion token).toOption
    | none => none
  else none

/-- The candidates of a listing, in the order of the listing. -/
def candidates (texts : List String) : List semver.Version :=
  texts.filterMap candidate

/-- The update of the running best by one candidate. -/
def pick (release r : semver.Version) : semver.Version :=
  if r.Compare release = 1 then r else release

/-- The version `v` is the first greatest of the sentinel followed by the
candidates `cs`: it stands at some place of that list, it compares strictly
greater than everything listed before that place and `>=` everything listed
after it. -/
def firstGreatest (cs : List semver.Version) (v : semver.Version) : Prop :=
  ∃ before after : List semver.Version,
    sentinel :: cs = before ++ v :: after ∧
    (∀ b ∈ before, v.Compare b = 1) ∧
    (∀ a ∈ after, 0 ≤ v.Compare a)

/-- A template environment whose template parses and whose execution fails
after writing part of the document. -/
def failingRender : template.Env Unit :=
  ⟨fun _ => (some (), none), fun _ _ _ => ("<html><body>", some "can't evaluate field Missing")⟩

/-- A template environment whose template file cannot be loaded. -/
def missingTemplate : template.Env Unit :=
  ⟨fun _ => (none, some "open templates/mail-k8s.html.tmpl: no such file or directory"),
    fun _ _ _ => ("", none)⟩

end k8s

/-! ## Lemmas: `strings` -/

namespace strings

theorem splitChars_ne_nil (sep : List Char) :
    ∀ (s : List Char) (skip : Nat) (cur : List Char), splitChars sep s skip cur ≠ [] := by
  intro s
  induction s with
  | nil => intro skip cur; simp [splitChars]
  | cons c rest ih =>
    intro skip cur
    cases skip with
    | zero =>
      simp only [splitChars]
      split
      · simp
      · exact ih 0 (c :: cur)
    | succ k => simpa [splitChars] using ih k cur

theorem Split_space_head (text : String) : ∃ token, (Split text " ")[0]? = some token := by
  have hsep : ¬ (" " : String).data = [] := by decide
  cases h : splitChars (" " : String).data text.data 0 [] with
  | nil => exact absurd h (splitChars_ne_nil _ _ _ _)
  | cons a rest => exact ⟨String.mk a, by simp [Split, hsep, h]⟩

end strings

/-! ## Lemmas: the callback as a pure fold -/

namespace k8s

theorem newVersion_sentinel : semver.NewVersion "0.0.0" = .ok sentinel := by rfl

theorem onHTML_eq (release : semver.Version) (text : String) :
    onHTML (some release) text
      = .returned (some ((candidate text).elim release (pick release))) := by
  obtain ⟨token, htok⟩ := strings.Split_space_head text
  unfold onHTML candidate
  cases hc : strings.Contains text "release" with
  | false => simp
  | true =>
    simp only [htok]
    cases hv : semver.NewVersion token with
    | error e => simp [Except.toOption]
    | ok r =>
      by_cases hcmp : r.Compare release = 1 <;> simp [Except.toOption, pick, hcmp]

theorem onHTML_skip (release : Option semver.Version) (text : String)
    (h : candidate text = none) : onHTML release text = .returned release := by
  obtain ⟨token, htok⟩ := strings.Split_space_head text
  unfold candidate at h
  unfold onHTML
  cases hc : strings.Contains text "release" with
  | false => simp
  | true =>
    simp only [hc, htok, if_true] at h
    simp only [htok]
    cases hv : semver.NewVersion token with
    | error e => simp
    | ok r => simp [hv, Except.toOption] at h

theorem runCallbacks_eq (texts : List String) :
    ∀ release : semver.Version,
      runCallbacks (some release) texts
        = .returned (some ((candidates texts).foldl pick release)) := by
  induction texts with
  | nil => intro release; simp [runCallbacks, candidates]
  | cons t rest ih =>
    intro release
    simp only [runCallbacks, onHTML_eq, Outcome.bind, ih]
    cases hc : candidate t with
    | none => simp [candidates, List.filterMap_cons, hc]
    | some r => simp [candidates, List.filterMap_cons, hc]

theorem latestVersion_page (texts : List String) :
    latestVersion (.page texts) = .returned (some ((candidates texts).foldl pick sentinel)) := by
  simp [latestVersion, newVersion_sentinel, Except.toOption, runCallbacks_eq]

theorem GetLatestRel_page (texts : List String) :
    GetLatestRel (.page texts)
      = .returned ((candidates texts).foldl pick sentinel).String := by
  simp [GetLatestRel, latestVersion_page, Outcome.bind]

theorem GetLatestRel_failed (err : String) :
    GetLatestRel (.failed err) = .returned "0.0.0" := by rfl

theorem candidates_append (l1 l2 : List String) :
    candidates (l1 ++ l2) = candidates l1 ++ candidates l2 := by
  simp [candidates]

theorem candidates_filter (texts : List String) :
    candidates (texts.filter (fun t => (candidate t).isSome)) = candidates texts := by
  induction texts with
  | nil => rfl
  | cons t rest ih =>
    cases hc : candidate t with
    | none => simpa [candidates, List.filter_cons, List.filterMap_cons, hc] using ih
    | some r => simpa [candidates, List.filter_cons, List.filterMap_cons, hc] using ih

end k8s

/-! ## Lemmas: the order of strings -/

namespace strings

theorem lessChars_irrefl : ∀ a : List Char, lessChars a a = false := by
  intro a
  induction a with
  | nil => rfl
  | cons c cs ih => simp [lessChars, ih]

theorem lessChars_total : ∀ a b : List Char, a ≠ b → lessChars a b = true ∨ lessChars b a = true := by
  intro a
  induction a with
  | nil =>
    intro b h
    cases b with
    | nil => exact absurd rfl h
    | cons d ds => simp [lessChars]
  | cons c cs ih =>
    intro b h
    cases b with
    | nil => simp [lessChars]
    | cons d ds =>
      simp only [lessChars]
      by_cases h1 : c.toNat < d.toNat
      · simp [h1]
      · by_cases h2 : d.toNat < c.toNat
        · simp [h2]
        · have hcd : c = d := by
            apply Char.ext
            apply UInt32.toNat.inj
            have : c.toNat = d.toNat := by omega
            simpa [Char.toNat] using this
          subst hcd
          have hne : cs ≠ ds := fun e => h (by rw [e])
          simpa [h1] using ih ds hne

theorem lessChars_asymm : ∀ a b : List Char, lessChars a b = true → lessChars b a = false := by
  intro a
  induction a with
  | nil =>
    intro b h
    cases b with
    | nil => rfl
    | cons d ds => rfl
  | cons c cs ih =>
    intro b h
    cases b with
    | nil => simp [lessChars] at h
    | cons d ds =>
      simp only [lessChars] at h ⊢
      by_cases h1 : c.toNat < d.toNat
      · have h2 : ¬ d.toNat < c.toNat := by omega
        simp [h1, h2]
      · by_cases h2 : d.toNat < c.toNat
        · simp [h1, h2] at h
        · simp only [h1, h2, if_false] at h ⊢
          exact ih ds h

theorem lessChars_trans : ∀ a b c : List Char,
    lessChars a b = true → lessChars b c = true → lessChars a c = true := by
  intro a
  induction a with
  | nil =>
    intro b c hab hbc
    cases b with
    | nil => simp [lessChars] at hab
    | cons d ds =>
      cases c with
      | nil => simp [lessChars] at hbc
      | cons e es => rfl
  | cons x xs ih =>
    intro b c hab hbc
    cases b with
    | nil => simp [lessChars] at hab
    | cons d ds =>
      cases c with
      | nil => simp [lessChars] at hbc
      | cons e es =>
        simp only [lessChars] at hab hbc ⊢
        by_cases h1 : x.toNat < d.toNat
        · by_cases h3 : d.toNat < e.toNat
          · have : x.toNat < e.toNat := by omega
            simp [this]
          · by_cases h4 : e.toNat < d.toNat
            · simp [h3, h4] at hbc
            · have : x.toNat < e.toNat := by omega
              simp [this]
        · by_cases h2 : d.toNat < x.toNat
          · simp [h1, h2] at hab
          · simp only [h1, h2, if_false] at hab
            by_cases h3 : d.toNat < e.toNat
            · have : x.toNat < e.toNat := by omega
              simp [this]
            · by_cases h4 : e.toNat < d.toNat
              · simp [h3, h4] at hbc
              · simp only [h3, h4, if_false] at hbc
                have h5 : ¬ x.toNat < e.toNat := by omega
                have h6 : ¬ e.toNat < x.toNat := by omega
                simp only [h5, h6, if_false]
                exact ih ds es hab hbc

end strings

/-! ## Lemmas: decimal numerals -/

namespace strconv

theorem isDigit_iff (c : Char) : c.isDigit = true ↔ 48 ≤ c.toNat ∧ c.toNat ≤ 57 := by
  simp only [Char.isDigit, Char.toNat, Bool.and_eq_true, decide_eq_true_eq, ge_iff_le]
  rw [UInt32.le_def, UInt32.le_def]
  rfl

theorem char_eq_of_toNat (c d : Char) (h : c.toNat = d.toNat) : c = d := by
  apply Char.ext
  apply UInt32.toNat.inj
  simpa [Char.toNat] using h

theorem foldl_digits (l : List Char) : ∀ acc : Nat,
    l.foldl (fun acc c => 10 * acc + (c.toNat - 48)) acc
      = acc * 10 ^ l.length + Nat.ofDigits 10 (l.map (fun c => c.toNat - 48)).reverse := by
  induction l with
  | nil => intro acc; simp
  | cons c cs ih =>
    intro acc
    simp only [List.foldl_cons, ih, List.map_cons, List.reverse_cons, Nat.ofDigits_append,
      List.length_cons, List.length_reverse, List.length_map, Nat.ofDigits_singleton]
    ring

theorem decimalValue_ofDigits (l : List Char) :
    decimalValue l = Nat.ofDigits 10 (l.map (fun c => c.toNat - 48)).reverse := by
  simp [decimalValue, foldl_digits]

theorem map_digit_inj : ∀ l1 l2 : List Char, l1.all Char.isDigit = true → l2.all Char.isDigit = true →
    l1.map (fun c => c.toNat - 48) = l2.map (fun c => c.toNat - 48) → l1 = l2 := by
  intro l1
  induction l1 with
  | nil => intro l2 _ _ h; cases l2 with
    | nil => rfl
    | cons d ds => simp at h
  | cons c cs ih =>
    intro l2 h1 h2 h
    cases l2 with
    | nil => simp at h
    | cons d ds =>
      simp only [List.all_cons, Bool.and_eq_true] at h1 h2
      simp only [List.map_cons, List.cons.injEq] at h
      have hc := (isDigit_iff c).1 h1.1
      have hd := (isDigit_iff d).1 h2.1
      have : c = d := char_eq_of_toNat c d (by omega)
      rw [this, ih ds h1.2 h2.2 h.2]

/-- A digit list whose first character is not `0` is the list of decimal digits of its value. -/
theorem digits_of_proper (c : Char) (cs : List Char) (hall : (c :: cs).all Char.isDigit = true)
    (hc : c ≠ '0') :
    Nat.digits 10 (decimalValue (c :: cs)) = ((c :: cs).map (fun c => c.toNat - 48)).reverse := by
  rw [decimalValue_ofDigits]
  apply Nat.digits_ofDigits 10 (by norm_num)
  · intro x hx
    simp only [List.mem_reverse, List.mem_map] at hx
    obtain ⟨y, hy, rfl⟩ := hx
    have := (isDigit_iff y).1 ((List.all_eq_true.1 hall) y hy)
    omega
  · intro hne
    rw [List.getLast_reverse]
    simp only [List.map_cons, List.head_cons]
    have h1 := (isDigit_iff c).1 (by simp only [List.all_cons, Bool.and_eq_true] at hall; exact hall.1)
    intro h0
    apply hc
    apply char_eq_of_toNat
    have : ('0' : Char).toNat = 48 := by decide
    omega

theorem canonical_inj (l1 l2 : List Char)
    (h1 : l1.all Char.isDigit = true) (h2 : l2.all Char.isDigit = true)
    (n1 : l1 ≠ []) (n2 : l2 ≠ [])
    (c1 : ¬ (l1.length > 1 ∧ l1.head? = some '0')) (c2 : ¬ (l2.length > 1 ∧ l2.head? = some '0'))
    (hv : decimalValue l1 = decimalValue l2) : l1 = l2 := by
  have key : ∀ l : List Char, l.all Char.isDigit = true → l ≠ [] →
      ¬ (l.length > 1 ∧ l.head? = some '0') →
      l = ['0'] ∨ (Nat.digits 10 (decimalValue l) = (l.map (fun c => c.toNat - 48)).reverse) := by
    intro l hl hn hc
    cases l with
    | nil => exact absurd rfl hn
    | cons c cs =>
      by_cases h0 : c = '0'
      · left
        subst h0
        cases cs with
        | nil => rfl
        | cons d ds => exact absurd ⟨by simp, by simp⟩ hc
      · right; exact digits_of_proper c cs hl h0
  have z : decimalValue ['0'] = 0 := by decide
  rcases key l1 h1 n1 c1 with e1 | e1 <;> rcases key l2 h2 n2 c2 with e2 | e2
  · rw [e1, e2]
  · rw [e1, z] at hv
    rw [← hv] at e2
    simp at e2
    exact absurd e2 n2
  · rw [e2, z] at hv
    rw [hv] at e1
    simp at e1
    exact absurd e1 n1
  · rw [hv, e2] at e1
    exact (map_digit_inj l1 l2 h1 h2 (List.reverse_injective e1.symm))

theorem ParseUint_some {s : String} {n : Nat} (h : ParseUint s = some n) :
    s.data ≠ [] ∧ s.data.all Char.isDigit = true ∧ decimalValue s.data = n := by
  unfold ParseUint at h
  split_ifs at h with h1 h2 h3
  exact ⟨h1, h2, Option.some.inj h⟩

end strconv

/-! ## Lemmas: the order of pre-release parts -/

namespace semver

open strconv strings

theorem parse_unique (a b : String) (ha : checkPrePart a = none) (hb : checkPrePart b = none)
    (n : Nat) (pa : ParseUint a = some n) (pb : ParseUint b = some n) : a = b := by
  obtain ⟨na, da, va⟩ := ParseUint_some pa
  obtain ⟨nb, db, vb⟩ := ParseUint_some pb
  have ca : ¬ (a.data.length > 1 ∧ a.data.head? = some '0') := by
    intro hc
    unfold checkPrePart at ha
    rw [if_pos (show containsOnly a Char.isDigit = true from da), if_pos hc] at ha
    cases ha
  have cb : ¬ (b.data.length > 1 ∧ b.data.head? = some '0') := by
    intro hc
    unfold checkPrePart at hb
    rw [if_pos (show containsOnly b Char.isDigit = true from db), if_pos hc] at hb
    cases hb
  exact String.ext (canonical_inj a.data b.data da db na nb ca cb (by rw [va, vb]))

theorem cpp_self (a : String) : comparePrePart a a = 0 := by
  simp [comparePrePart]

theorem cpp_range (a b : String) :
    comparePrePart a b = -1 ∨ comparePrePart a b = 0 ∨ comparePrePart a b = 1 := by
  by_cases hab : a = b
  · simp [comparePrePart, hab]
  · by_cases ea : a = ""
    · subst ea
      have hb : ¬ b = "" := fun e => hab e.symm
      simp [comparePrePart, hab, hb]
    · by_cases eb : b = ""
      · simp [comparePrePart, hab, ea, eb]
      · simp only [comparePrePart, hab, ea, eb, if_false]
        cases ParseUint a <;> cases ParseUint b <;> simp only [] <;> (try split_ifs) <;> simp

theorem cpp_eq_zero (a b : String) (h : comparePrePart a b = 0) : a = b := by
  by_contra hab
  by_cases ea : a = ""
  · subst ea
    have hb : ¬ b = "" := fun e => hab e.symm
    simp [comparePrePart, hab, hb] at h
  · by_cases eb : b = ""
    · simp [comparePrePart, hab, ea, eb] at h
    · simp only [comparePrePart, hab, ea, eb, if_false] at h
      revert h
      cases ParseUint a <;> cases ParseUint b <;> simp only [] <;> (try split_ifs) <;> simp

theorem cpp_anti (a b : String) (ha : checkPrePart a = none) (hb : checkPrePart b = none) :
    comparePrePart b a = - comparePrePart a b := by
  by_cases hab : a = b
  · subst hab; simp [comparePrePart]
  · have hba : ¬ b = a := fun e => hab e.symm
    by_cases ea : a = ""
    · subst ea; simp [comparePrePart, hab, hba]
    · by_cases eb : b = ""
      · subst eb; simp [comparePrePart, hab, hba, ea]
      · simp only [comparePrePart, hab, hba, ea, eb, if_false]
        cases pa : ParseUint a with
        | none =>
          cases pb : ParseUint b with
          | none =>
            simp only []
            have hd : a.data ≠ b.data := fun e => hab (String.ext e)
            rcases lessChars_total a.data b.data hd with h | h
            · have h2 := lessChars_asymm _ _ h
              simp [Less, h, h2]
            · have h2 := lessChars_asymm _ _ h
              simp [Less, h, h2]
          | some y => simp only []
        | some x =>
          cases pb : ParseUint b with
          | none => simp only []; rfl
          | some y =>
            simp only []
            have hxy : x ≠ y := by
              intro e
              subst e
              exact hab (parse_unique a b ha hb x pa pb)
            by_cases h : x < y
            · have : ¬ y < x := by omega
              simp [h, this]
            · have : y < x := by omega
              simp [h, this]

theorem cpp_trans (a b c : String) (ha : checkPrePart a = none) (hb : checkPrePart b = none)
    (hc : checkPrePart c = none)
    (hab : comparePrePart a b = 1) (hbc : comparePrePart b c = 1) : comparePrePart a c = 1 := by
  have nab : ¬ a = b := by
    intro e; rw [e, cpp_self] at hab; exact absurd hab (by decide)
  have nbc : ¬ b = c := by
    intro e; rw [e, cpp_self] at hbc; exact absurd hbc (by decide)
  have ea : ¬ a = "" := by
    intro e
    subst e
    have : ¬ b = "" := fun e => nab e.symm
    simp [comparePrePart, nab, this] at hab
  have eb : ¬ b = "" := by
    intro e
    subst e
    have : ¬ c = "" := fun e => nbc e.symm
    simp [comparePrePart, nbc, this] at hbc
  by_cases ec : c = ""
  · subst ec; simp [comparePrePart, ea]
  · have nac : ¬ a = c := by
      intro e
      subst e
      have := cpp_anti a b ha hb
      rw [hab, hbc] at this
      exact absurd this (by decide)
    simp only [comparePrePart, nab, nbc, nac, ea, eb, ec, if_false] at hab hbc ⊢
    cases pa : ParseUint a with
    | none =>
      cases pb : ParseUint b with
      | none =>
        cases pc : ParseUint c with
        | none =>
          simp only [pa, pb, pc] at hab hbc ⊢
          have h1 : lessChars b.data a.data = true := by
            by_contra h; simp [Less, h] at hab
          have h2 : lessChars c.data b.data = true := by
            by_contra h; simp [Less, h] at hbc
          simp [Less, lessChars_trans _ _ _ h2 h1]
        | some z => simp only []
      | some y =>
        cases pc : ParseUint c with
        | none => simp only [pa, pb, pc] at hbc; exact absurd hbc (by decide)
        | some z => simp only []
    | some x =>
      cases pb : ParseUint b with
      | none => simp only [pa, pb] at hab; exact absurd hab (by decide)
      | some y =>
        cases pc : ParseUint c with
        | none => simp only [pa, pb, pc] at hbc; exact absurd hbc (by decide)
        | some z =>
          simp only [pa, pb, pc] at hab hbc ⊢
          have h1 : y < x := by
            by_contra h; simp [h] at hab
          have h2 : z < y := by
            by_contra h; simp [h] at hbc
          have : z < x := by omega
          simp [this]

/-! ## Lemmas: the order of pre-release lists -/

theorem cmpPadded_step (n : Nat) (a b : List String) :
    cmpPadded (n + 1) a b
      = if comparePrePart (a.headD "") (b.headD "") ≠ 0 then
          comparePrePart (a.headD "") (b.headD "")
        else cmpPadded n a.tail b.tail := rfl

theorem headD_drop (l : List String) :
    ∀ i : Nat, (if i < l.length then l.getD i "" else "") = (l.drop i).headD "" := by
  induction l with
  | nil => intro i; simp
  | cons x xs ih =>
    intro i
    cases i with
    | zero => simp
    | succ k => simpa using ih k

theorem loop_eq (s o : List String) :
    ∀ n i : Nat, comparePreLoop s o n i = cmpPadded n (s.drop i) (o.drop i) := by
  intro n
  induction n with
  | zero => intro i; rfl
  | succ k ih =>
    intro i
    simp only [comparePreLoop, cmpPadded_step, headD_drop, ih, List.tail_drop, List.drop_drop]

theorem cmpPadded_succ :
    ∀ (n : Nat) (a b : List String), a.length ≤ n → b.length ≤ n →
      cmpPadded (n + 1) a b = cmpPadded n a b := by
  intro n
  induction n with
  | zero =>
    intro a b ha hb
    have ea : a = [] := List.length_eq_zero.1 (by omega)
    have eb : b = [] := List.length_eq_zero.1 (by omega)
    subst ea eb
    simp [cmpPadded, cpp_self]
  | succ k ih =>
    intro a b ha hb
    rw [cmpPadded_step (k + 1) a b, cmpPadded_step k a b,
      ih a.tail b.tail (by rw [List.length_tail]; omega) (by rw [List.length_tail]; omega)]

theorem cmpPadded_add (n : Nat) (a b : List String) (ha : a.length ≤ n) (hb : b.length ≤ n) :
    ∀ k : Nat, cmpPadded (n + k) a b = cmpPadded n a b := by
  intro k
  induction k with
  | zero => rfl
  | succ j ih =>
    rw [← Nat.add_assoc, cmpPadded_succ (n + j) a b (by omega) (by omega), ih]

theorem comparePrerelease_eq (v o : String) (n : Nat)
    (hv : (strings.Split v ".").length ≤ n) (ho : (strings.Split o ".").length ≤ n) :
    comparePrerelease v o = cmpPadded n (strings.Split v ".") (strings.Split o ".") := by
  unfold comparePrerelease
  simp only [loop_eq, List.drop_zero]
  split_ifs with h
  · obtain ⟨k, rfl⟩ := Nat.exists_eq_add_of_le ho
    exact (cmpPadded_add _ _ _ (by omega) (le_refl _) k).symm
  · obtain ⟨k, rfl⟩ := Nat.exists_eq_add_of_le hv
    exact (cmpPadded_add _ _ _ (le_refl _) (by omega) k).symm

theorem checkPrePart_empty : checkPrePart "" = none := by rfl

theorem ok_headD (a : List String) (h : ∀ p ∈ a, checkPrePart p = none) :
    checkPrePart (a.headD "") = none := by
  cases a with
  | nil => exact checkPrePart_empty
  | cons x xs => exact h x (by simp)

theorem ok_tail (a : List String) (h : ∀ p ∈ a, checkPrePart p = none) :
    ∀ p ∈ a.tail, checkPrePart p = none :=
  fun p hp => h p (List.mem_of_mem_tail hp)

theorem cmpPadded_self : ∀ (n : Nat) (a : List String), cmpPadded n a a = 0 := by
  intro n
  induction n with
  | zero => intro a; rfl
  | succ k ih => intro a; simp [cmpPadded_step, cpp_self, ih]

theorem cmpPadded_range : ∀ (n : Nat) (a b : List String),
    cmpPadded n a b = -1 ∨ cmpPadded n a b = 0 ∨ cmpPadded n a b = 1 := by
  intro n
  induction n with
  | zero => intro a b; right; left; rfl
  | succ k ih =>
    intro a b
    rw [cmpPadded_step]
    split_ifs with h
    · exact cpp_range _ _
    · exact ih _ _

theorem cmpPadded_anti : ∀ (n : Nat) (a b : List String),
    (∀ p ∈ a, checkPrePart p = none) → (∀ p ∈ b, checkPrePart p = none) →
      cmpPadded n b a = - cmpPadded n a b := by
  intro n
  induction n with
  | zero => intro a b _ _; rfl
  | succ k ih =>
    intro a b ha hb
    rw [cmpPadded_step, cmpPadded_step, cpp_anti _ _ (ok_headD a ha) (ok_headD b hb),
      ih _ _ (ok_tail a ha) (ok_tail b hb)]
    split_ifs <;> omega

theorem cmpPadded_trans : ∀ (n : Nat) (a b c : List String),
    (∀ p ∈ a, checkPrePart p = none) → (∀ p ∈ b, checkPrePart p = none) →
    (∀ p ∈ c, checkPrePart p = none) →
      0 ≤ cmpPadded n a b → 0 ≤ cmpPadded n b c → 0 ≤ cmpPadded n a c := by
  intro n
  induction n with
  | zero => intro a b c _ _ _ _ _; exact le_refl _
  | succ k ih =>
    intro a b c ha hb hc hab hbc
    rw [cmpPadded_step] at hab hbc ⊢
    have oa := ok_headD a ha
    have ob := ok_headD b hb
    have oc := ok_headD c hc
    by_cases h1 : comparePrePart (a.headD "") (b.headD "") = 0
    · have e1 := cpp_eq_zero _ _ h1
      rw [if_neg (not_not.2 h1)] at hab
      rw [e1]
      by_cases h2 : comparePrePart (b.headD "") (c.headD "") = 0
      · rw [if_neg (not_not.2 h2)] at hbc ⊢
        exact ih _ _ _ (ok_tail a ha) (ok_tail b hb) (ok_tail c hc) hab hbc
      · rw [if_pos h2] at hbc ⊢
        exact hbc
    · rw [if_pos h1] at hab
      have g1 : comparePrePart (a.headD "") (b.headD "") = 1 := by
        rcases cpp_range (a.headD "") (b.headD "") with h | h | h
        · omega
        · exact absurd h h1
        · exact h
      by_cases h2 : comparePrePart (b.headD "") (c.headD "") = 0
      · have e2 := cpp_eq_zero _ _ h2
        rw [← e2, if_pos h1]
        exact hab
      · rw [if_pos h2] at hbc
        have g2 : comparePrePart (b.headD "") (c.headD "") = 1 := by
          rcases cpp_range (b.headD "") (c.headD "") with h | h | h
          · omega
          · exact absurd h h2
          · exact h
        rw [cpp_trans _ _ _ oa ob oc g1 g2]
        simp

/-! ## Lemmas: the order of versions -/

theorem firstError_none (check : String → Option Error) :
    ∀ l : List String, firstError check l = none → ∀ p ∈ l, check p = none := by
  intro l
  induction l with
  | nil => intro _ p hp; simp at hp
  | cons x xs ih =>
    intro h p hp
    unfold firstError at h
    cases hx : check x with
    | some e => simp [hx] at h
    | none =>
      simp only [hx] at h
      rcases List.mem_cons.1 hp with e | e
      · rw [e]; exact hx
      · exact ih h p e

theorem wf_of_pre_empty (v : Version) (h : v.pre = "") : v.wf := by
  intro p hp
  rw [h] at hp
  have : strings.Split "" "." = [""] := by decide
  rw [this] at hp
  rw [List.mem_singleton.1 hp]
  rfl

theorem NewVersion_wf (t : String) (r : Version) (h : NewVersion t = .ok r) : r.wf := by
  unfold NewVersion at h
  split at h
  · cases h
  · rename_i m _
    split at h
    · split_ifs at h with h1 h2
      rename_i major minor patch _ _ _
      injection h with h
      by_cases he : m.m5 = ""
      · exact wf_of_pre_empty r (by rw [← h]; exact he)
      · have hv : validatePrerelease m.m5 = none := by
          cases hq : validatePrerelease m.m5 with
          | none => rfl
          | some e => exact absurd ⟨he, by simp [hq]⟩ h1
        intro p hp
        rw [← h] at hp
        exact firstError_none _ _ hv p hp
    · cases h

theorem cpr_self (v : String) : comparePrerelease v v = 0 := by
  rw [comparePrerelease_eq v v _ (le_refl _) (le_refl _), cmpPadded_self]

theorem cpr_range (v o : String) :
    comparePrerelease v o = -1 ∨ comparePrerelease v o = 0 ∨ comparePrerelease v o = 1 := by
  rw [comparePrerelease_eq v o _ (le_max_left _ _) (le_max_right _ _)]
  exact cmpPadded_range _ _ _

theorem cpr_anti (v o : String) (hv : ∀ p ∈ strings.Split v ".", checkPrePart p = none)
    (ho : ∀ p ∈ strings.Split o ".", checkPrePart p = none) :
    comparePrerelease o v = - comparePrerelease v o := by
  rw [comparePrerelease_eq v o _ (le_max_left _ _) (le_max_right _ _),
    comparePrerelease_eq o v _ (le_max_right _ _) (le_max_left _ _)]
  exact cmpPadded_anti _ _ _ hv ho

theorem cpr_trans (a b c : String) (ha : ∀ p ∈ strings.Split a ".", checkPrePart p = none)
    (hb : ∀ p ∈ strings.Split b ".", checkPrePart p = none)
    (hc : ∀ p ∈ strings.Split c ".", checkPrePart p = none)
    (hab : 0 ≤ comparePrerelease a b) (hbc : 0 ≤ comparePrerelease b c) :
    0 ≤ comparePrerelease a c := by
  have la : (strings.Split a ".").length ≤ max (strings.Split a ".").length
      (max (strings.Split b ".").length (strings.Split c ".").length) := le_max_left _ _
  have lb : (strings.Split b ".").length ≤ max (strings.Split a ".").length
      (max (strings.Split b ".").length (strings.Split c ".").length) :=
    le_trans (le_max_left _ _) (le_max_right _ _)
  have lc : (strings.Split c ".").length ≤ max (strings.Split a ".").length
      (max (strings.Split b ".").length (strings.Split c ".").length) :=
    le_trans (le_max_right _ _) (le_max_right _ _)
  rw [comparePrerelease_eq a b _ la lb] at hab
  rw [comparePrerelease_eq b c _ lb lc] at hbc
  rw [comparePrerelease_eq a c _ la lc]
  exact cmpPadded_trans _ _ _ _ ha hb hc hab hbc

theorem seg_ite (x y : Nat) (r : Int) :
    (if compareSegment x y ≠ 0 then compareSegment x y else r)
      = if x < y then -1 else if y < x then 1 else r := by
  unfold compareSegment
  split_ifs <;> first | rfl | omega

theorem Compare_eq (v o : Version) :
    v.Compare o =
      if v.major < o.major then -1 else if o.major < v.major then 1
      else if v.minor < o.minor then -1 else if o.minor < v.minor then 1
      else if v.patch < o.patch then -1 else if o.patch < v.patch then 1
      else if v.pre = "" ∧ o.pre = "" then 0
      else if v.pre = "" then 1
      else if o.pre = "" then -1
      else comparePrerelease v.pre o.pre := by
  unfold Version.Compare
  rw [seg_ite, seg_ite, seg_ite]

theorem layer_anti (x y : Nat) (r r' : Int) (h : r' = - r) :
    (if y < x then (-1 : Int) else if x < y then 1 else r')
      = - (if x < y then (-1 : Int) else if y < x then 1 else r) := by
  split_ifs <;> omega

theorem layer_trans (x y z : Nat) (r1 r2 r3 : Int)
    (h1 : 0 ≤ (if x < y then (-1 : Int) else if y < x then 1 else r1))
    (h2 : 0 ≤ (if y < z then (-1 : Int) else if z < y then 1 else r2))
    (h : 0 ≤ r1 → 0 ≤ r2 → 0 ≤ r3) :
    0 ≤ (if x < z then (-1 : Int) else if z < x then 1 else r3) := by
  split_ifs at h1 h2 ⊢ <;> omega

theorem pre_anti (p q : String) (x x' : Int) (h : x' = - x) :
    (if q = "" ∧ p = "" then (0 : Int) else if q = "" then 1 else if p = "" then -1 else x')
      = - (if p = "" ∧ q = "" then (0 : Int) else if p = "" then 1 else if q = "" then -1 else x) := by
  by_cases hp : p = "" <;> by_cases hq : q = "" <;> simp [hp, hq, h]

theorem pre_trans (p q r : String) (x y z : Int)
    (h1 : 0 ≤ (if p = "" ∧ q = "" then (0 : Int) else if p = "" then 1 else if q = "" then -1 else x))
    (h2 : 0 ≤ (if q = "" ∧ r = "" then (0 : Int) else if q = "" then 1 else if r = "" then -1 else y))
    (h : 0 ≤ x → 0 ≤ y → 0 ≤ z) :
    0 ≤ (if p = "" ∧ r = "" then (0 : Int) else if p = "" then 1 else if r = "" then -1 else z) := by
  by_cases hp : p = "" <;> by_cases hq : q = "" <;> by_cases hr : r = "" <;>
    simp [hp, hq, hr] at h1 h2 ⊢
  exact h h1 h2

theorem Compare_self (v : Version) : v.Compare v = 0 := by
  rw [Compare_eq]
  simp only [lt_irrefl, if_false, and_self]
  split_ifs
  · rfl
  · exact cpr_self _

theorem Compare_range (v o : Version) :
    v.Compare o = -1 ∨ v.Compare o = 0 ∨ v.Compare o = 1 := by
  rw [Compare_eq]
  split_ifs <;> first | exact cpr_range _ _ | simp

theorem Compare_anti (v o : Version) (hv : v.wf) (ho : o.wf) :
    o.Compare v = - v.Compare o := by
  rw [Compare_eq, Compare_eq]
  refine layer_anti _ _ _ _ (layer_anti _ _ _ _ (layer_anti _ _ _ _ (pre_anti _ _ _ _ ?_)))
  exact cpr_anti v.pre o.pre hv ho

theorem Compare_trans (a b c : Version) (ha : a.wf) (hb : b.wf) (hc : c.wf)
    (hab : 0 ≤ a.Compare b) (hbc : 0 ≤ b.Compare c) : 0 ≤ a.Compare c := by
  rw [Compare_eq] at hab hbc ⊢
  refine layer_trans _ _ _ _ _ _ hab hbc (fun h1 h2 => ?_)
  refine layer_trans _ _ _ _ _ _ h1 h2 (fun h3 h4 => ?_)
  refine layer_trans _ _ _ _ _ _ h3 h4 (fun h5 h6 => ?_)
  exact pre_trans _ _ _ _ _ _ h5 h6 (cpr_trans a.pre b.pre c.pre ha hb hc)

theorem Compare_eq_zero (a b : Version) (h : a.Compare b = 0) :
    a.major = b.major ∧ a.minor = b.minor ∧ a.patch = b.patch := by
  rw [Compare_eq] at h
  split_ifs at h <;> omega

end semver

/-! ## Lemmas: the running best -/

namespace k8s

open semver

theorem sentinel_wf : sentinel.wf := wf_of_pre_empty sentinel rfl

theorem candidate_wf (text : String) (c : Version) (h : candidate text = some c) : c.wf := by
  unfold candidate at h
  split_ifs at h
  split at h
  · rename_i token _
    cases hv : NewVersion token with
    | error e => simp [hv, Except.toOption] at h
    | ok r =>
      simp only [hv, Except.toOption, Option.some.injEq] at h
      exact h ▸ NewVersion_wf token r hv
  · cases h

theorem candidates_wf (texts : List String) : ∀ c ∈ candidates texts, c.wf := by
  intro c hc
  obtain ⟨t, _, ht⟩ := List.mem_filterMap.1 hc
  exact candidate_wf t c ht

theorem pick_wf (rel c : Version) (hr : rel.wf) (hc : c.wf) : (pick rel c).wf := by
  unfold pick
  split_ifs
  · exact hc
  · exact hr

theorem pick_ge (rel c : Version) (hr : rel.wf) (hc : c.wf) :
    0 ≤ (pick rel c).Compare rel ∧ 0 ≤ (pick rel c).Compare c := by
  unfold pick
  split_ifs with h
  · exact ⟨by rw [h]; decide, by rw [Compare_self]⟩
  · refine ⟨by rw [Compare_self], ?_⟩
    rw [Compare_anti c rel hc hr]
    rcases Compare_range c rel with g | g | g
    · rw [g]; decide
    · rw [g]; decide
    · exact absurd g h

theorem fold_wf : ∀ (cs : List Version) (rel : Version), rel.wf → (∀ c ∈ cs, c.wf) →
    (cs.foldl pick rel).wf := by
  intro cs
  induction cs with
  | nil => intro rel hr _; exact hr
  | cons c rest ih =>
    intro rel hr hcs
    exact ih (pick rel c) (pick_wf rel c hr (hcs c (by simp)))
      (fun x hx => hcs x (List.mem_cons_of_mem _ hx))

theorem fold_mem : ∀ (cs : List Version) (rel : Version),
    cs.foldl pick rel = rel ∨ cs.foldl pick rel ∈ cs := by
  intro cs
  induction cs with
  | nil => intro rel; left; rfl
  | cons c rest ih =>
    intro rel
    rcases ih (pick rel c) with h | h
    · rw [List.foldl_cons, h]
      unfold pick
      split_ifs
      · right; simp
      · left; rfl
    · right; exact List.mem_cons_of_mem _ h

theorem fold_ge : ∀ (cs : List Version) (rel : Version), rel.wf → (∀ c ∈ cs, c.wf) →
    0 ≤ (cs.foldl pick rel).Compare rel ∧ ∀ c ∈ cs, 0 ≤ (cs.foldl pick rel).Compare c := by
  intro cs
  induction cs with
  | nil =>
    intro rel _ _
    exact ⟨by rw [List.foldl_nil, Compare_self], fun c hc => by simp at hc⟩
  | cons c rest ih =>
    intro rel hr hcs
    have hc : c.wf := hcs c (by simp)
    have hrest : ∀ x ∈ rest, x.wf := fun x hx => hcs x (List.mem_cons_of_mem _ hx)
    have hp := pick_wf rel c hr hc
    obtain ⟨g1, g2⟩ := ih (pick rel c) hp hrest
    have hm : (rest.foldl pick (pick rel c)).wf := fold_wf rest _ hp hrest
    obtain ⟨p1, p2⟩ := pick_ge rel c hr hc
    rw [List.foldl_cons]
    refine ⟨Compare_trans _ _ _ hm hp hr g1 p1, ?_⟩
    intro x hx
    rcases List.mem_cons.1 hx with e | e
    · rw [e]; exact Compare_trans _ _ _ hm hp hc g1 p2
    · exact g2 x e

theorem fold_stay : ∀ (cs : List Version) (rel : Version),
    (∀ c ∈ cs, c.Compare rel ≠ 1) → cs.foldl pick rel = rel := by
  intro cs
  induction cs with
  | nil => intro rel _; rfl
  | cons c rest ih =>
    intro rel h
    have hc : pick rel c = rel := by
      unfold pick
      rw [if_neg (h c (by simp))]
    rw [List.foldl_cons, hc]
    exact ih rel (fun x hx => h x (List.mem_cons_of_mem _ hx))

/-- Two maxima of the same collection compare equal. -/
theorem fold_perm (cs1 cs2 : List Version) (hp : cs1.Perm cs2) (h1 : ∀ c ∈ cs1, c.wf) :
    (cs1.foldl pick sentinel).Compare (cs2.foldl pick sentinel) = 0 := by
  have h2 : ∀ c ∈ cs2, c.wf := fun c hc => h1 c (hp.mem_iff.2 hc)
  have w1 := fold_wf cs1 sentinel sentinel_wf h1
  have w2 := fold_wf cs2 sentinel sentinel_wf h2
  obtain ⟨a1, a2⟩ := fold_ge cs1 sentinel sentinel_wf h1
  obtain ⟨b1, b2⟩ := fold_ge cs2 sentinel sentinel_wf h2
  have x : 0 ≤ (cs1.foldl pick sentinel).Compare (cs2.foldl pick sentinel) := by
    rcases fold_mem cs2 sentinel with e | e
    · rw [e]; exact a1
    · exact a2 _ (hp.mem_iff.2 e)
  have y : 0 ≤ (cs2.foldl pick sentinel).Compare (cs1.foldl pick sentinel) := by
    rcases fold_mem cs1 sentinel with e | e
    · rw [e]; exact b1
    · exact b2 _ (hp.mem_iff.1 e)
  rw [Compare_anti _ _ w1 w2] at y
  omega

theorem Compare_strict_left (a b c : Version) (ha : a.wf) (hb : b.wf) (hc : c.wf)
    (hab : 0 ≤ a.Compare b) (hbc : b.Compare c = 1) : a.Compare c = 1 := by
  have hac : 0 ≤ a.Compare c := Compare_trans a b c ha hb hc hab (by rw [hbc]; decide)
  rcases Compare_range a c with g | g | g
  · rw [g] at hac; exact absurd hac (by decide)
  · have hca : 0 ≤ c.Compare a := by rw [Compare_anti a c ha hc, g]; decide
    have hcb := Compare_trans c a b hc ha hb hca hab
    rw [Compare_anti b c hb hc, hbc] at hcb
    exact absurd hcb (by decide)
  · exact g

theorem Compare_strict_right (a b c : Version) (ha : a.wf) (hb : b.wf) (hc : c.wf)
    (hab : a.Compare b = 1) (hbc : 0 ≤ b.Compare c) : a.Compare c = 1 := by
  have hac : 0 ≤ a.Compare c := Compare_trans a b c ha hb hc (by rw [hab]; decide) hbc
  rcases Compare_range a c with g | g | g
  · rw [g] at hac; exact absurd hac (by decide)
  · have hca : 0 ≤ c.Compare a := by rw [Compare_anti a c ha hc, g]; decide
    have hba := Compare_trans b c a hb hc ha hbc hca
    rw [Compare_anti a b ha hb, hab] at hba
    exact absurd hba (by decide)
  · exact g

/-- The running best is the first greatest element of the start value followed
by the candidates. -/
theorem fold_first : ∀ (cs : List Version) (rel : Version), rel.wf → (∀ c ∈ cs, c.wf) →
    ∃ before after : List Version,
      rel :: cs = before ++ (cs.foldl pick rel) :: after ∧
      (∀ b ∈ before, (cs.foldl pick rel).Compare b = 1) ∧
      (∀ a ∈ after, 0 ≤ (cs.foldl pick rel).Compare a) := by
  intro cs
  induction cs with
  | nil =>
    intro rel _ _
    exact ⟨[], [], rfl, fun b hb => by simp at hb, fun a h => by simp at h⟩
  | cons c rest ih =>
    intro rel hr hcs
    have hc : c.wf := hcs c (by simp)
    have hrest : ∀ x ∈ rest, x.wf := fun x hx => hcs x (List.mem_cons_of_mem _ hx)
    rw [List.foldl_cons]
    by_cases hgt : c.Compare rel = 1
    · have hp : pick rel c = c := by unfold pick; rw [if_pos hgt]
      rw [hp]
      obtain ⟨before, after, e, h1, h2⟩ := ih c hc hrest
      have hm : (rest.foldl pick c).wf := fold_wf rest c hc hrest
      have hmc : 0 ≤ (rest.foldl pick c).Compare c := (fold_ge rest c hc hrest).1
      refine ⟨rel :: before, after, by rw [e]; rfl, ?_, h2⟩
      intro b hb
      rcases List.mem_cons.1 hb with e1 | e1
      · rw [e1]; exact Compare_strict_left _ c rel hm hc hr hmc hgt
      · exact h1 b e1
    · have hp : pick rel c = rel := by unfold pick; rw [if_neg hgt]
      rw [hp]
      have hrc : 0 ≤ rel.Compare c := by
        have := (pick_ge rel c hr hc).2
        rwa [hp] at this
      obtain ⟨before, after, e, h1, h2⟩ := ih rel hr hrest
      have hm : (rest.foldl pick rel).wf := fold_wf rest rel hr hrest
      cases before with
      | nil =>
        simp only [List.nil_append, List.cons.injEq] at e
        refine ⟨[], c :: rest, by rw [← e.1]; rfl, fun b hb => by simp at hb, ?_⟩
        intro a ha
        rcases List.mem_cons.1 ha with e1 | e1
        · rw [e1, ← e.1]; exact hrc
        · exact h2 a (by rw [← e.2]; exact e1)
      | cons b0 bs =>
        simp only [List.cons_append, List.cons.injEq] at e
        have hmrel : (rest.foldl pick rel).Compare rel = 1 := by
          have := h1 b0 (by simp)
          rwa [← e.1] at this
        refine ⟨rel :: c :: bs, after, congrArg (fun l => rel :: c :: l) e.2, ?_, h2⟩
        intro b hb
        rcases List.mem_cons.1 hb with e1 | e1
        · rw [e1]; exact hmrel
        · rcases List.mem_cons.1 e1 with e2 | e2
          · rw [e2]; exact Compare_strict_right _ rel c hm hr hc hmrel hrc
          · exact h1 b (List.mem_cons_of_mem _ e2)

theorem candidates_perm (l1 l2 : List String) (h : l1.Perm l2) :
    (candidates l1).Perm (candidates l2) :=
  h.filterMap candidate

end k8s

/-! ## Lemmas: versions that compare equal -/

namespace semver

open strings

theorem splitDot_cons (c : Char) (rest cur : List Char) :
    splitChars ['.'] (c :: rest) 0 cur
      = if c = '.' then cur.reverse :: splitChars ['.'] rest 0 []
        else splitChars ['.'] rest 0 (c :: cur) := by
  by_cases h : c = '.'
  · subst h; simp [splitChars, hasLead]
  · have h2 : ¬ '.' = c := fun e => h e.symm
    simp [splitChars, hasLead, h, h2]

theorem identChar_ne_dot (c : Char) (h : identChar c = true) : c ≠ '.' := by
  intro e
  rw [e] at h
  exact absurd h (by decide)

theorem identsTail_ident (c : Char) (rest : List Char) (h : identChar c = true) :
    identsTail (c :: rest) = (c :: (identsTail rest).1, (identsTail rest).2) := by
  simp [identsTail, h]

theorem identsTail_dot (d : Char) (rest : List Char) (h : identChar d = true) :
    identsTail ('.' :: d :: rest)
      = ('.' :: (identsTail (d :: rest)).1, (identsTail (d :: rest)).2) := by
  have h0 : identChar '.' = false := by decide
  conv_lhs => unfold identsTail
  simp [h0, h]

theorem identsTail_stop (c : Char) (rest : List Char) (hc : ¬ identChar c = true)
    (h : c = '.' → ∀ d rest', rest = d :: rest' → ¬ identChar d = true) :
    (identsTail (c :: rest)).1 = [] := by
  have h0 : identChar '.' = false := by decide
  by_cases hdot : c = '.'
  · cases rest with
    | nil => simp [identsTail, hdot, h0]
    | cons d rest' =>
      have hd := h hdot d rest' rfl
      conv_lhs => unfold identsTail
      simp [hdot, hd, h0]
  · simp [identsTail, hc, hdot]

theorem identsTail_parts : ∀ (r cur : List Char),
    (cur ≠ [] ∨ ∃ d rest, r = d :: rest ∧ identChar d = true) →
      ∀ p ∈ splitChars ['.'] (identsTail r).1 0 cur, p ≠ [] := by
  intro r
  induction r with
  | nil =>
    intro cur h p hp
    rcases h with h | ⟨d, rest, h, _⟩
    · simp only [identsTail, splitChars, List.mem_singleton] at hp
      rw [hp]; simpa using h
    · cases h
  | cons c rest ih =>
    intro cur h p hp
    by_cases hc : identChar c = true
    · rw [identsTail_ident c rest hc, splitDot_cons, if_neg (identChar_ne_dot c hc)] at hp
      exact ih (c :: cur) (Or.inl (by simp)) p hp
    · have hcur : cur ≠ [] := by
        rcases h with h | ⟨d, rest', h, hd⟩
        · exact h
        · injection h with h1 h2
          rw [← h1] at hd
          exact absurd hd hc
      by_cases hgo : c = '.' ∧ ∃ d rest', rest = d :: rest' ∧ identChar d = true
      · obtain ⟨hdot, d, rest', hr, hd⟩ := hgo
        subst hdot
        subst hr
        rw [identsTail_dot d rest' hd, splitDot_cons, if_pos rfl] at hp
        rcases List.mem_cons.1 hp with e | e
        · rw [e]; simpa using hcur
        · exact ih [] (Or.inr ⟨d, rest', rfl, hd⟩) p e
      · have hstop := identsTail_stop c rest hc
          (fun hdot d rest' hr hd => hgo ⟨hdot, d, rest', hr, hd⟩)
        rw [hstop] at hp
        simp only [splitChars, List.mem_singleton] at hp
        rw [hp]; simpa using hcur

theorem optTagged_eq (lead : Char) (s : List Char) (h : (optTagged lead s).1 ≠ []) :
    ∃ d r, identChar d = true ∧ (optTagged lead s).1 = d :: (identsTail r).1 := by
  cases s with
  | nil => exact absurd rfl h
  | cons c s1 =>
    cases s1 with
    | nil => exact absurd rfl h
    | cons d r =>
      by_cases hc : c = lead ∧ identChar d = true
      · exact ⟨d, r, hc.2, by simp [optTagged, hc]⟩
      · exact absurd (by simp [optTagged, hc]) h

theorem optTagged_parts (lead : Char) (s : List Char) (h : (optTagged lead s).1 ≠ []) :
    ∀ p ∈ splitChars ['.'] (optTagged lead s).1 0 [], p ≠ [] := by
  obtain ⟨d, r, hd, e⟩ := optTagged_eq lead s h
  intro p hp
  rw [e, splitDot_cons, if_neg (identChar_ne_dot d hd)] at hp
  exact identsTail_parts r [d] (Or.inl (by simp)) p hp

theorem Split_dot (v : String) : Split v "." = (splitChars ['.'] v.data 0 []).map String.mk := by
  have h : ¬ (".").data = [] := by decide
  unfold Split
  rw [if_neg h]

theorem FindStringSubmatch_parts (v : String) (m : Submatch) (h : FindStringSubmatch v = some m)
    (hne : m.m5 ≠ "") : ∀ p ∈ Split m.m5 ".", p ≠ "" := by
  unfold FindStringSubmatch at h
  simp only at h
  split_ifs at h
  injection h with h
  subst h
  simp only at hne ⊢
  intro p hp
  rw [Split_dot] at hp
  obtain ⟨q, hq, rfl⟩ := List.mem_map.1 hp
  have hq2 := optTagged_parts _ _ (fun e => hne (by rw [e])) q hq
  intro e
  exact hq2 (congrArg String.data e)

theorem NewVersion_parts (t : String) (r : Version) (h : NewVersion t = .ok r)
    (hne : r.pre ≠ "") : ∀ p ∈ Split r.pre ".", p ≠ "" := by
  unfold NewVersion at h
  split at h
  · cases h
  · rename_i m hm
    split at h
    · split_ifs at h
      injection h with h
      subst h
      exact FindStringSubmatch_parts t m hm hne
    · cases h

theorem intercalate_cons (sep a : List Char) (l : List (List Char)) (h : l ≠ []) :
    List.intercalate sep (a :: l) = a ++ sep ++ List.intercalate sep l := by
  cases l with
  | nil => exact absurd rfl h
  | cons b bs => simp [List.intercalate, List.intersperse]

theorem intercalate_splitDot : ∀ (s cur : List Char),
    List.intercalate ['.'] (splitChars ['.'] s 0 cur) = cur.reverse ++ s := by
  intro s
  induction s with
  | nil => intro cur; simp [splitChars, List.intercalate]
  | cons c rest ih =>
    intro cur
    rw [splitDot_cons]
    split_ifs with h
    · rw [intercalate_cons _ _ _ (splitChars_ne_nil _ _ _ _), ih, h]
      simp
    · rw [ih]; simp

theorem Split_dot_inj (a b : String) (h : Split a "." = Split b ".") : a = b := by
  rw [Split_dot, Split_dot] at h
  have hinj : Function.Injective String.mk := fun x y e => by injection e
  have h2 := List.map_injective_iff.2 hinj h
  have h3 := congrArg (List.intercalate ['.']) h2
  rw [intercalate_splitDot, intercalate_splitDot] at h3
  exact String.ext (by simpa using h3)

theorem cmpPadded_eq_zero : ∀ (n : Nat) (a b : List String),
    (∀ p ∈ a, p ≠ "") → (∀ p ∈ b, p ≠ "") → a.length ≤ n → b.length ≤ n →
      cmpPadded n a b = 0 → a = b := by
  intro n
  induction n with
  | zero =>
    intro a b _ _ la lb _
    rw [List.length_eq_zero.1 (Nat.le_zero.1 la), List.length_eq_zero.1 (Nat.le_zero.1 lb)]
  | succ k ih =>
    intro a b ha hb la lb h
    rw [cmpPadded_step] at h
    by_cases h0 : comparePrePart (a.headD "") (b.headD "") = 0
    · rw [if_neg (not_not.2 h0)] at h
      have e := cpp_eq_zero _ _ h0
      cases a with
      | nil =>
        cases b with
        | nil => rfl
        | cons y ys => exact absurd e.symm (hb y (by simp))
      | cons x xs =>
        cases b with
        | nil => exact absurd e (ha x (by simp))
        | cons y ys =>
          simp only [List.headD_cons] at e
          simp only [List.tail_cons] at h
          simp only [List.length_cons] at la lb
          rw [e, ih xs ys (fun p hp => ha p (List.mem_cons_of_mem _ hp))
            (fun p hp => hb p (List.mem_cons_of_mem _ hp)) (by omega) (by omega) h]
    · rw [if_pos h0] at h
      exact absurd h h0

theorem Compare_zero_pre (a b : Version) (h : a.Compare b = 0)
    (ha : a.pre ≠ "" → ∀ p ∈ Split a.pre ".", p ≠ "")
    (hb : b.pre ≠ "" → ∀ p ∈ Split b.pre ".", p ≠ "") : a.pre = b.pre := by
  obtain ⟨e1, e2, e3⟩ := Compare_eq_zero a b h
  rw [Compare_eq] at h
  simp only [e1, e2, e3, lt_irrefl, if_false] at h
  by_cases pa : a.pre = ""
  · by_cases pb : b.pre = ""
    · rw [pa, pb]
    · simp [pa, pb] at h
  · by_cases pb : b.pre = ""
    · simp [pa, pb] at h
    · simp only [pa, pb, and_self, if_false] at h
      apply Split_dot_inj
      rw [comparePrerelease_eq a.pre b.pre _ (le_max_left _ _) (le_max_right _ _)] at h
      exact cmpPadded_eq_zero _ _ _ (ha pa) (hb pb) (le_max_left _ _) (le_max_right _ _) h

end semver

/-! ## Lemmas: storage -/

namespace os

theorem QuotaFS_readAfterWrite : QuotaFS.env.ReadAfterWrite := by
  intro s name data perm h
  simp only [QuotaFS.env, QuotaFS.write] at h ⊢
  cases hr : s.room with
  | zero => simp [hr] at h
  | succ k => simp [QuotaFS.read, List.lookup]

theorem MemFS_readAfterWrite : MemFS.env.ReadAfterWrite := by
  intro s name data perm h
  simp only [MemFS.env, MemFS.write] at h ⊢
  by_cases hr : s.readOnly = true
  · simp [hr] at h
  · simp [hr, MemFS.read, List.lookup]

end os

/-! ## The claims -/

namespace k8s

open semver

theorem candidate_none_of_discarded (text : String)
    (h : strings.Contains text "release" = false ∨
      ∃ token e, (strings.Split text " ")[0]? = some token ∧ NewVersion token = .error e) :
    candidate text = none := by
  unfold candidate
  rcases h with h | ⟨token, e, h1, h2⟩
  · simp [h]
  · split_ifs
    · simp [h1, h2, Except.toOption]
    · rfl

/-- C1 (amended): for every listing of element texts, `GetLatestRel` returns the
`String()` form of a version `v` that is one of the candidates or the sentinel
`0.0.0` it starts from (the sentinel only when no candidate compares greater
than it), and `v` compares `>=` every candidate of the listing. -/
theorem C1_latest_is_greatest_candidate_or_sentinel (texts : List String) :
    ∃ v : Version,
      latestVersion (.page texts) = .returned (some v) ∧
      GetLatestRel (.page texts) = .returned v.String ∧
      (v ∈ candidates texts ∨
        (v = sentinel ∧ ∀ c ∈ candidates texts, c.Compare sentinel ≠ 1)) ∧
      ∀ c ∈ candidates texts, 0 ≤ v.Compare c := by
  refine ⟨(candidates texts).foldl pick sentinel, latestVersion_page texts,
    GetLatestRel_page texts, ?_, ?_⟩
  · rcases fold_mem (candidates texts) sentinel with h | h
    · right
      refine ⟨h, fun c hc hgt => ?_⟩
      have hge := (fold_ge (candidates texts) sentinel sentinel_wf (candidates_wf texts)).2 c hc
      rw [h, Compare_anti c sentinel (candidates_wf texts c hc) sentinel_wf, hgt] at hge
      exact absurd hge (by decide)
    · left; exact h
  · exact (fold_ge (candidates texts) sentinel sentinel_wf (candidates_wf texts)).2

/-- C1 (counterexample): the listing `["0.0.0-alpha release"]` has the single
candidate `0.0.0-alpha`, yet `GetLatestRel` returns `"0.0.0"`, which is the
`String()` form of no candidate. -/
theorem C1_counterexample_prerelease_of_zero :
    candidates ["0.0.0-alpha release"] = [⟨0, 0, 0, "alpha", "", "0.0.0-alpha"⟩] ∧
    GetLatestRel (.page ["0.0.0-alpha release"]) = .returned "0.0.0" ∧
    ¬ ∃ c ∈ candidates ["0.0.0-alpha release"],
        GetLatestRel (.page ["0.0.0-alpha release"]) = .returned c.String ∧
        ∀ d ∈ candidates ["0.0.0-alpha release"], 0 ≤ c.Compare d := by
  decide

/-- C2 (amended): the sentinel is the version parsed from `"0.0.0"`, and a parsed
version `r` compares greater than it (`r.Compare(sentinel) == 1`) exactly when
its major, minor and patch numbers are not all zero; a parsed version `0.0.0`
compares equal to it and a pre-release of `0.0.0` compares less. -/
theorem C2_sentinel_below_nonzero_versions (t : String) (r : Version)
    (h : NewVersion t = .ok r) :
    NewVersion "0.0.0" = .ok sentinel ∧
    (r.Compare sentinel = 1 ↔ ¬ (r.major = 0 ∧ r.minor = 0 ∧ r.patch = 0)) ∧
    (r.major = 0 ∧ r.minor = 0 ∧ r.patch = 0 →
      r.Compare sentinel = if r.pre = "" then 0 else -1) := by
  have _ := h
  refine ⟨rfl, ?_, ?_⟩
  · rw [Compare_eq]
    simp only [sentinel, Nat.not_lt_zero, if_false, and_true]
    constructor
    · intro hc hz
      obtain ⟨h1, h2, h3⟩ := hz
      rw [h1, h2, h3] at hc
      simp only [lt_irrefl, if_false] at hc
      split_ifs at hc
      omega
    · intro hz
      split_ifs <;> first | rfl | (exfalso; apply hz; omega)
  · rintro ⟨h1, h2, h3⟩
    rw [Compare_eq]
    simp only [sentinel, h1, h2, h3, lt_irrefl, if_false, and_true]
    split_ifs <;> rfl

/-- C2 (witness): the token `"1.27.0"` parses and compares greater than the
sentinel. -/
theorem C2_witness :
    NewVersion "1.27.0" = .ok ⟨1, 27, 0, "", "", "1.27.0"⟩ ∧
    ((⟨1, 27, 0, "", "", "1.27.0"⟩ : Version).Compare sentinel = 1 ↔
      ¬ ((1 : Nat) = 0 ∧ (27 : Nat) = 0 ∧ (0 : Nat) = 0)) :=
  ⟨rfl, (C2_sentinel_below_nonzero_versions "1.27.0" ⟨1, 27, 0, "", "", "1.27.0"⟩ rfl).2.1⟩

/-- C2 (counterexample): the tokens `"0.0.0"` and `"0.0.0-alpha"` parse, and the
versions they give do not compare greater than the sentinel. -/
theorem C2_counterexample_zero_versions :
    ¬ ∀ (t : String) (r : Version), NewVersion t = .ok r → r.Compare sentinel = 1 := by
  intro h
  have h0 := h "0.0.0" sentinel rfl
  revert h0
  decide

/-- C3: when the page fetch fails, when the listing is empty, and when no
element both contains `"release"` and has a first token that parses,
`GetLatestRel` returns normally with exactly `"0.0.0"`. -/
theorem C3_no_candidate_gives_sentinel :
    (∀ err : String, GetLatestRel (.failed err) = .returned "0.0.0") ∧
    GetLatestRel (.page []) = .returned "0.0.0" ∧
    ∀ texts : List String,
      (∀ t ∈ texts, strings.Contains t "release" = false ∨
        ∃ token e, (strings.Split t " ")[0]? = some token ∧ NewVersion token = .error e) →
      GetLatestRel (.page texts) = .returned "0.0.0" := by
  refine ⟨GetLatestRel_failed, rfl, fun texts h => ?_⟩
  have hc : candidates texts = [] := by
    unfold candidates
    rw [List.filterMap_eq_nil_iff]
    exact fun t ht => candidate_none_of_discarded t (h t ht)
  rw [GetLatestRel_page, hc]
  rfl

/-- C3 (witness): a listing of two elements, one without `"release"` and one
whose first token does not parse. -/
theorem C3_witness :
    GetLatestRel (.page ["1.28.0-beta", "latest release"]) = .returned "0.0.0" :=
  C3_no_candidate_gives_sentinel.2.2 ["1.28.0-beta", "latest release"] (by
    intro t ht
    rcases List.mem_cons.1 ht with e | ht
    · exact Or.inl (by rw [e]; decide)
    · rw [List.mem_singleton.1 ht]
      exact Or.inr ⟨"latest", Error.ErrInvalidSemVer, by decide, by rfl⟩)

/-- C4: for every element text the index `[0]` into `strings.Split(text, " ")` is
in range and the callback returns without a panic; when the text lacks
`"release"` or its first token does not parse, the running best is unchanged;
and `GetLatestRel` on a listing equals `GetLatestRel` on the listing with all
such elements removed. -/
theorem C4_malformed_elements_are_discarded (text : String) (release : Version) :
    (∃ token, (strings.Split text " ")[0]? = some token) ∧
    (∃ r, onHTML (some release) text = .returned (some r)) ∧
    ((strings.Contains text "release" = false ∨
        ∃ token e, (strings.Split text " ")[0]? = some token ∧ NewVersion token = .error e) →
      onHTML (some release) text = .returned (some release)) ∧
    ∀ texts : List String,
      (GetLatestRel (.page texts)).isReturned = true ∧
      GetLatestRel (.page texts)
        = GetLatestRel (.page (texts.filter (fun t => (candidate t).isSome))) := by
  refine ⟨strings.Split_space_head text, ⟨_, onHTML_eq release text⟩, ?_, fun texts => ⟨?_, ?_⟩⟩
  · intro h
    exact onHTML_skip (some release) text (candidate_none_of_discarded text h)
  · rw [GetLatestRel_page]; rfl
  · rw [GetLatestRel_page, GetLatestRel_page, candidates_filter]

/-- C4 (witness): the empty text and a text without a space are discarded. -/
theorem C4_witness :
    onHTML (some sentinel) "" = .returned (some sentinel) ∧
    GetLatestRel (.page ["", "release", "1.27.0 release"])
      = GetLatestRel (.page (["", "release", "1.27.0 release"].filter
          (fun t => (candidate t).isSome))) :=
  ⟨(C4_malformed_elements_are_discarded "" sentinel).2.2.1 (Or.inl (by decide)),
    ((C4_malformed_elements_are_discarded "" sentinel).2.2.2 _).2⟩

/-- C5: on the listing `"1.26.3 release"`, `"1.27.0 release"`, `"1.28.0-beta"`
`GetLatestRel` returns `"1.27.0"`; and an element whose text does not contain
`"release"` never changes the result, whatever its first token is. -/
theorem C5_elements_without_release_are_ignored :
    GetLatestRel (.page ["1.26.3 release", "1.27.0 release", "1.28.0-beta"])
      = .returned "1.27.0" ∧
    ∀ (before after : List String) (text : String),
      strings.Contains text "release" = false →
      GetLatestRel (.page (before ++ text :: after))
        = GetLatestRel (.page (before ++ after)) := by
  refine ⟨by decide, fun before after text h => ?_⟩
  have hc : candidate text = none := candidate_none_of_discarded text (Or.inl h)
  rw [GetLatestRel_page, GetLatestRel_page, candidates_append, candidates_append]
  simp [candidates, List.filterMap_cons, hc]

/-- C5 (witness): the pre-release element `"1.28.0-beta"` placed first changes
nothing. -/
theorem C5_witness :
    GetLatestRel (.page ([] ++ "1.28.0-beta" :: ["1.27.0 release"]))
      = GetLatestRel (.page ([] ++ ["1.27.0 release"])) :=
  C5_elements_without_release_are_ignored.2 [] ["1.27.0 release"] "1.28.0-beta" (by decide)

/-- C6 (amended): whenever reading the artifact file `"k8s_release"` returns an
error, `GetPrevRelFromArtifact` returns normally with the empty string `""`. -/
theorem C6_load_error_gives_empty_string {σ : Type} (env : os.Env σ) (s : σ) (e : String)
    (h : env.ReadFile s artifactName = .error e) :
    GetPrevRelFromArtifact env s = .returned "" := by
  simp [GetPrevRelFromArtifact, h]

/-- C6 (witness): a storage without the artifact file. -/
theorem C6_witness :
    GetPrevRelFromArtifact os.MemFS.env ⟨[], false⟩ = .returned "" :=
  C6_load_error_gives_empty_string os.MemFS.env ⟨[], false⟩ "no such file or directory" rfl

/-- C6 (counterexample): on a storage without the artifact file the read fails
and `GetPrevRelFromArtifact` returns `""`, which is not the `"0.0.0"` that
`GetLatestRel` returns when no version is found, and which `semver.NewVersion`
rejects, so it stands for no version at all. -/
theorem C6_counterexample_missing_file :
    os.MemFS.env.ReadFile ⟨[], false⟩ artifactName = .error "no such file or directory" ∧
    GetPrevRelFromArtifact os.MemFS.env ⟨[], false⟩ = .returned "" ∧
    GetLatestRel (.failed "connection refused") = .returned "0.0.0" ∧
    GetPrevRelFromArtifact os.MemFS.env ⟨[], false⟩ ≠ GetLatestRel (.failed "connection refused") ∧
    NewVersion "" = .error Error.ErrInvalidSemVer := by
  refine ⟨rfl, rfl, rfl, by decide, rfl⟩

/-- C7: `SaveLatestRel` returns normally if and only if `os.WriteFile` returned a
nil error; when `os.WriteFile` returns an error the call ends in `log.Fatalln`
with that error and does not return. -/
theorem C7_save_returns_iff_write_succeeded {σ : Type} (env : os.Env σ) (s : σ)
    (release : String) :
    ((SaveLatestRel env s release).2 = .returned () ↔
      (env.WriteFile s artifactName release 0o644).2 = none) ∧
    (∀ err, (env.WriteFile s artifactName release 0o644).2 = some err →
      (SaveLatestRel env s release).2 = .fatal err) ∧
    (SaveLatestRel env s release).1 = (env.WriteFile s artifactName release 0o644).1 := by
  unfold SaveLatestRel
  rcases hw : env.WriteFile s artifactName release 0o644 with ⟨s1, _ | err⟩
  · simp
  · simp

/-- C7 (witness): a storage that refuses writes makes `SaveLatestRel` fatal. -/
theorem C7_witness :
    (SaveLatestRel os.MemFS.env ⟨[], true⟩ "1.29.1").2 = .fatal "read-only file system" :=
  (C7_save_returns_iff_write_succeeded os.MemFS.env ⟨[], true⟩ "1.29.1").2.1
    "read-only file system" rfl

/-- C8 (amended): on a storage where a successful write is what a later read
returns, if `SaveLatestRel(v)` returns normally then `GetPrevRelFromArtifact()`
called on the storage it leaves returns exactly `v`, and a second
`SaveLatestRel(v)` that returns normally leaves the stored record as it was. -/
theorem C8_save_then_load_round_trip {σ : Type} (env : os.Env σ) (law : env.ReadAfterWrite)
    (s : σ) (v : String) (h : (SaveLatestRel env s v).2 = .returned ()) :
    GetPrevRelFromArtifact env (SaveLatestRel env s v).1 = .returned v ∧
    ((SaveLatestRel env (SaveLatestRel env s v).1 v).2 = .returned () →
      env.ReadFile (SaveLatestRel env (SaveLatestRel env s v).1 v).1 artifactName
        = env.ReadFile (SaveLatestRel env s v).1 artifactName ∧
      GetPrevRelFromArtifact env (SaveLatestRel env (SaveLatestRel env s v).1 v).1
        = .returned v) := by
  have key : ∀ s0 : σ, (SaveLatestRel env s0 v).2 = .returned () →
      env.ReadFile (SaveLatestRel env s0 v).1 artifactName = .ok v := by
    intro s0 h0
    have hw := law s0 artifactName v 0o644
    unfold SaveLatestRel at h0 ⊢
    rcases hq : env.WriteFile s0 artifactName v 0o644 with ⟨s1, _ | err⟩
    · rw [hq] at hw
      exact hw rfl
    · rw [hq] at h0
      simp at h0
  have r1 := key s h
  refine ⟨by simp [GetPrevRelFromArtifact, r1], fun h2 => ?_⟩
  have r2 := key _ h2
  exact ⟨by rw [r1, r2], by simp [GetPrevRelFromArtifact, r2]⟩

/-- C8 (witness): saving `"1.29.1"` over an older record and loading it back. -/
theorem C8_witness :
    GetPrevRelFromArtifact os.MemFS.env
      (SaveLatestRel os.MemFS.env ⟨[("k8s_release", "1.27.0")], false⟩ "1.29.1").1
        = .returned "1.29.1" :=
  (C8_save_then_load_round_trip os.MemFS.env os.MemFS_readAfterWrite
    ⟨[("k8s_release", "1.27.0")], false⟩ "1.29.1" rfl).1

/-- C8 (counterexample): on a storage with room for one write, where a
successful write is what a later read returns, the first `SaveLatestRel("1.29.1")`
returns normally and the record reads back `"1.29.1"`; the second
`SaveLatestRel("1.29.1")` fails after the file has been emptied, so it ends in
`log.Fatalln` and the stored record is no longer what it was. -/
theorem C8_counterexample_second_save_fails :
    os.QuotaFS.env.ReadAfterWrite ∧
    (SaveLatestRel os.QuotaFS.env ⟨[], 1⟩ "1.29.1").2 = .returned () ∧
    GetPrevRelFromArtifact os.QuotaFS.env
      (SaveLatestRel os.QuotaFS.env ⟨[], 1⟩ "1.29.1").1 = .returned "1.29.1" ∧
    (SaveLatestRel os.QuotaFS.env
      (SaveLatestRel os.QuotaFS.env ⟨[], 1⟩ "1.29.1").1 "1.29.1").2
        = .fatal "no space left on device" ∧
    GetPrevRelFromArtifact os.QuotaFS.env
      (SaveLatestRel os.QuotaFS.env
        (SaveLatestRel os.QuotaFS.env ⟨[], 1⟩ "1.29.1").1 "1.29.1").1 = .returned "" ∧
    GetPrevRelFromArtifact os.QuotaFS.env
      (SaveLatestRel os.QuotaFS.env
        (SaveLatestRel os.QuotaFS.env ⟨[], 1⟩ "1.29.1").1 "1.29.1").1
      ≠ GetPrevRelFromArtifact os.QuotaFS.env
          (SaveLatestRel os.QuotaFS.env ⟨[], 1⟩ "1.29.1").1 := by
  refine ⟨os.QuotaFS_readAfterWrite, rfl, rfl, rfl, rfl, by decide⟩

/-- C9 (the code at the failing input): when the template loads and its
execution returns an error after writing part of the document, `Notify` drops
the error, passes the partial buffer to `mail.SendMail` and returns; whereas a
load error (`err != nil`) always ends the call before `mail.SendMail`. -/
theorem C9_render_error_is_ignored :
    (failingRender.Execute () "1.29.1" "1.27.0").2 = some "can't evaluate field Missing" ∧
    (Notify failingRender (fun _ => .returned ()) "1.29.1" "1.27.0").1.length = 1 ∧
    (Notify failingRender (fun _ => .returned ()) "1.29.1" "1.27.0").2 = .returned () ∧
    (Notify missingTemplate (fun _ => .returned ()) "1.29.1" "1.27.0").1 = [] ∧
    (Notify missingTemplate (fun _ => .returned ()) "1.29.1" "1.27.0").2.isReturned = false ∧
    ∀ (T : Type) (tpl : template.Env T) (send : String → Outcome Unit) (n a : String),
      (tpl.ParseFiles mailTemplate).2 ≠ none →
        (Notify tpl send n a).1 = [] ∧ (Notify tpl send n a).2.isReturned = false := by
  refine ⟨rfl, rfl, rfl, rfl, rfl, fun T tpl send n a h => ?_⟩
  unfold Notify
  rcases hp : tpl.ParseFiles mailTemplate with ⟨_ | t, _ | err⟩
  · simp [Outcome.isReturned]
  · simp [Outcome.isReturned]
  · rw [hp] at h; exact absurd rfl h
  · simp [Outcome.isReturned]

theorem candidate_parts (text : String) (c : Version) (h : candidate text = some c)
    (hne : c.pre ≠ "") : ∀ p ∈ strings.Split c.pre ".", p ≠ "" := by
  unfold candidate at h
  split_ifs at h
  split at h
  · rename_i token _
    cases hv : NewVersion token with
    | error e => simp [hv, Except.toOption] at h
    | ok r =>
      simp only [hv, Except.toOption, Option.some.injEq] at h
      subst h
      exact NewVersion_parts token r hv hne
  · cases h

theorem latest_parts (texts : List String)
    (hne : ((candidates texts).foldl pick sentinel).pre ≠ "") :
    ∀ p ∈ strings.Split ((candidates texts).foldl pick sentinel).pre ".", p ≠ "" := by
  rcases fold_mem (candidates texts) sentinel with h | h
  · rw [h] at hne
    exact absurd rfl hne
  · obtain ⟨t, _, ht⟩ := List.mem_filterMap.1 h
    exact candidate_parts t _ ht hne

/-- C10 (amended): for every listing and every permutation of it, the versions
the two runs end with compare equal and have the same major, minor, patch and
pre-release, so the two returned strings can differ only in the build metadata
(the part after `+`); when the build metadata agree the returned strings are the
same.  In each run the version returned is the first greatest of the sentinel
followed by the candidates in listing order: everything listed before it
compares strictly less than it, so of candidates that compare equal (such as
those that differ only in build metadata) the first one listed is returned. -/
theorem C10_order_independent_up_to_build_metadata (l1 l2 : List String) (h : l1.Perm l2) :
    ∃ v1 v2 : Version,
      GetLatestRel (.page l1) = .returned v1.String ∧
      GetLatestRel (.page l2) = .returned v2.String ∧
      v1.Compare v2 = 0 ∧
      v1.major = v2.major ∧ v1.minor = v2.minor ∧ v1.patch = v2.patch ∧ v1.pre = v2.pre ∧
      (v1.metadata = v2.metadata → GetLatestRel (.page l1) = GetLatestRel (.page l2)) ∧
      firstGreatest (candidates l1) v1 ∧
      firstGreatest (candidates l2) v2 := by
  have hc := fold_perm (candidates l1) (candidates l2) (candidates_perm l1 l2 h)
    (candidates_wf l1)
  obtain ⟨e1, e2, e3⟩ := Compare_eq_zero _ _ hc
  have e4 := Compare_zero_pre _ _ hc (latest_parts l1) (latest_parts l2)
  refine ⟨(candidates l1).foldl pick sentinel, (candidates l2).foldl pick sentinel,
    GetLatestRel_page l1, GetLatestRel_page l2, hc, e1, e2, e3, e4, fun e5 => ?_,
    fold_first (candidates l1) sentinel sentinel_wf (candidates_wf l1),
    fold_first (candidates l2) sentinel sentinel_wf (candidates_wf l2)⟩
  rw [GetLatestRel_page, GetLatestRel_page]
  unfold Version.String
  rw [e1, e2, e3, e4, e5]

/-- C10 (witness): two elements that differ in a leading `v` and in the omitted
patch number, in both orders. -/
theorem C10_witness :
    ∃ v1 v2 : Version,
      GetLatestRel (.page ["v1.30 release", "1.30.0 release"]) = .returned v1.String ∧
      GetLatestRel (.page ["1.30.0 release", "v1.30 release"]) = .returned v2.String ∧
      v1.Compare v2 = 0 ∧
      v1.major = v2.major ∧ v1.minor = v2.minor ∧ v1.patch = v2.patch ∧ v1.pre = v2.pre ∧
      (v1.metadata = v2.metadata →
        GetLatestRel (.page ["v1.30 release", "1.30.0 release"])
          = GetLatestRel (.page ["1.30.0 release", "v1.30 release"])) ∧
      firstGreatest (candidates ["v1.30 release", "1.30.0 release"]) v1 ∧
      firstGreatest (candidates ["1.30.0 release", "v1.30 release"]) v2 :=
  C10_order_independent_up_to_build_metadata _ _ (List.Perm.swap _ _ _)

/-- C10 (counterexample): two candidates that differ only in build metadata
compare equal, so the first one listed is kept: the listing and its swap return
different strings. -/
theorem C10_counterexample_build_metadata :
    List.Perm ["1.0.0+a release", "1.0.0+b release"] ["1.0.0+b release", "1.0.0+a release"] ∧
    GetLatestRel (.page ["1.0.0+a release", "1.0.0+b release"]) = .returned "1.0.0+a" ∧
    GetLatestRel (.page ["1.0.0+b release", "1.0.0+a release"]) = .returned "1.0.0+b" ∧
    GetLatestRel (.page ["1.0.0+a release", "1.0.0+b release"])
      ≠ GetLatestRel (.page ["1.0.0+b release", "1.0.0+a release"]) := by
  refine ⟨List.Perm.swap _ _ _, by decide, by decide, by decide⟩

end k8s
